import Mathlib

/-!
Shallow embedding of the Brainfuck decoder
(`src/ciphey/basemods/Decoders/brainfuck.py`, class `Brainfuck`).

Modelling choices:
* A Python string is a `List Char`; the produced output string is a
  `List Nat` of the code points passed to `chr` (every claim speaks of
  "a one-character string whose code point is n", i.e. `[n]`).
* The `bracemap` Python dict is an association list `List (Nat × Nat)`;
  a new binding is prepended, and `List.lookup` returns the most recent
  binding, which is the Python dict semantics (keys are distinct here).
* The wall clock is abstracted by a function `elapsed : Nat → Nat`
  giving the whole number of seconds `time.time() - start` observed at the
  top of the n-th iteration of the interpreter loop; the Python check
  `current - start > timelimit` becomes `60 < elapsed n`.
* The `while` loop is given explicit fuel.  Running out of fuel yields the
  outer `none`; the Python `return None` paths (invalid program, timeout)
  yield `some none`; successful completion yields `some (some result)`.
* Reads that would raise in Python (`memory[memptr]` out of range,
  `bracemap[codeptr]` on a missing key) are modelled with `getD` defaults;
  the safety claim proves these paths are never taken on eligible programs.
-/

namespace Ciphey
namespace Brainfuck

/-- The seven legal Brainfuck instructions accepted by the decoder
(`legal_instructions` in `bracemap_and_check`; note `,` is excluded). -/
def isLegalInstruction (c : Char) : Bool :=
  c == '+' || c == '-' || c == '>' || c == '<' || c == '[' || c == ']' || c == '.'

/-- Whitespace as matched by Python's `re.match(r"\s", instruction)` for the
ASCII range (Python also accepts some Unicode spaces; no claim depends on
those, and both sides of every statement below use this same predicate). -/
def isSpaceChar (c : Char) : Bool :=
  c == ' ' || c == '\t' || c == '\n' || c == '\x0b' || c == '\x0c' || c == '\r'

/-- The `legal_count` update performed for every scanned character:
`if instruction in legal_instructions or re.match(r"\s", instruction):
legal_count += 1`. -/
def legalBump (c : Char) (legalCount : Nat) : Nat :=
  if isLegalInstruction c || isSpaceChar c then legalCount + 1 else legalCount

/-- The scanning loop of `bracemap_and_check`.  Arguments mirror the Python
locals: remaining characters, current index `idx`, `open_stack` (top of the
Python list is the head here), `bracemap`, `legal_count`, `prints`.
Returns `none` for the `except IndexError: return (None, False)` path, and
otherwise the final values of the four locals. -/
def scanAux : List Char → Nat → List Nat → List (Nat × Nat) → Nat → Bool →
    Option (List Nat × List (Nat × Nat) × Nat × Bool)
  | [], _, openStack, bracemap, legalCount, prints =>
      some (openStack, bracemap, legalCount, prints)
  | c :: rest, idx, openStack, bracemap, legalCount, prints =>
      if prints = false ∧ c = '.' then
        scanAux rest (idx + 1) openStack bracemap (legalBump c legalCount) true
      else if c = '[' then
        scanAux rest (idx + 1) (idx :: openStack) bracemap (legalBump c legalCount) prints
      else if c = ']' then
        match openStack with
        | [] => none
        | opbracket :: tail =>
            scanAux rest (idx + 1) tail
              ((idx, opbracket) :: (opbracket, idx) :: bracemap)
              (legalBump c legalCount) prints
      else
        scanAux rest (idx + 1) openStack bracemap (legalBump c legalCount) prints

/-- `Brainfuck.bracemap_and_check`: returns the bracemap together with the
eligibility flag `legal_count == len(program) and not open_stack and prints`. -/
def bracemap_and_check (program : List Char) : Option (List (Nat × Nat)) × Bool :=
  match scanAux program 0 [] [] 0 false with
  | none => (none, false)
  | some (openStack, bracemap, legalCount, prints) =>
      (some bracemap, decide (legalCount = program.length) && openStack.isEmpty && prints)

/-- Interpreter state: the Python locals `result`, `memory`, `codeptr`,
`memptr` of `Brainfuck.decode`. -/
structure St where
  result : List Nat
  memory : List Nat
  codeptr : Nat
  memptr : Nat
deriving DecidableEq, Repr

/-- One iteration of the `while codeptr < len(ctext)` body of
`Brainfuck.decode` (after the time check): dispatch on `cmd = ctext[codeptr]`
and then the unconditional `codeptr += 1`. -/
def step (prog : List Char) (bracemap : List (Nat × Nat)) (s : St) : St :=
  let cmd := prog.getD s.codeptr ' '
  let cell := s.memory.getD s.memptr 0
  let s' :=
    if cmd = '+' then
      { s with memory := s.memory.set s.memptr (if cell < 255 then cell + 1 else 0) }
    else if cmd = '-' then
      { s with memory := s.memory.set s.memptr (if 0 < cell then cell - 1 else 255) }
    else if cmd = '>' then
      { s with memory := if s.memptr = s.memory.length - 1 then s.memory ++ [0] else s.memory,
               memptr := s.memptr + 1 }
    else if cmd = '<' then
      { s with memptr := if s.memptr = 0 then s.memory.length - 1 else s.memptr - 1 }
    else if cmd = '[' ∧ cell = 0 then
      { s with codeptr := (bracemap.lookup s.codeptr).getD s.codeptr }
    else if cmd = ']' ∧ cell ≠ 0 then
      { s with codeptr := (bracemap.lookup s.codeptr).getD s.codeptr }
    else if cmd = '.' then
      { s with result := s.result ++ [cell] }
    else s
  { s' with codeptr := s'.codeptr + 1 }

/-- The `while codeptr < len(ctext)` loop of `Brainfuck.decode`.  `n` is the
iteration counter feeding the abstract clock.  `none`: out of fuel;
`some none`: the timeout `return None`; `some (some s)`: normal exit. -/
def run (prog : List Char) (bracemap : List (Nat × Nat)) (elapsed : Nat → Nat) :
    Nat → Nat → St → Option (Option St)
  | 0, _, _ => none
  | fuel + 1, n, s =>
    if s.codeptr < prog.length then
      if 60 < elapsed n then some none
      else run prog bracemap elapsed fuel (n + 1) (step prog bracemap s)
    else some (some s)

/-- Initial state of `Brainfuck.decode`: `result = ""`, `memory = [0] * 100`,
`codeptr, memptr = 0, 0`. -/
def initSt : St :=
  ⟨[], List.replicate 100 0, 0, 0⟩

/-- `Brainfuck.decode` up to the final projection: validate with
`bracemap_and_check`, return `None` (here `some none`) if not eligible, and
otherwise run the interpreter loop from the initial state. -/
def runProgram (elapsed : Nat → Nat) (fuel : Nat) (ctext : List Char) : Option (Option St) :=
  match bracemap_and_check ctext with
  | (_, false) => some none
  | (bmOpt, true) => run ctext (bmOpt.getD []) elapsed fuel 0 initSt

/-- `Brainfuck.decode`: the returned string (as code points), `some none`
standing for Python's `None`. -/
def decode (elapsed : Nat → Nat) (fuel : Nat) (ctext : List Char) :
    Option (Option (List Nat)) :=
  (runProgram elapsed fuel ctext).map (Option.map St.result)

/-! Specification-side vocabulary used to state the claims: bracket depth,
well-nested matching, and the three eligibility conditions as the
specification words them. -/

/-- Number of `[` among the first `k` characters. -/
def opens (prog : List Char) (k : Nat) : Nat :=
  (prog.take k).countP (fun c => c == '[')

/-- Number of `]` among the first `k` characters. -/
def closes (prog : List Char) (k : Nat) : Nat :=
  (prog.take k).countP (fun c => c == ']')

/-- Bracket nesting depth in front of position `k`. -/
def depth (prog : List Char) (k : Nat) : Int :=
  (opens prog k : Int) - (closes prog k : Int)

/-- Position `j` holds the well-nested `]` matching the `[` at position `i`:
the depth returns to its pre-`[` value right after `j` and stays strictly
above it in between. -/
def IsMatch (prog : List Char) (i j : Nat) : Prop :=
  i < j ∧ j < prog.length ∧ prog.getD i ' ' = '[' ∧ prog.getD j ' ' = ']' ∧
    depth prog (j + 1) = depth prog i ∧
    ∀ k, i < k → k ≤ j → depth prog i < depth prog k

/-- Number of `[` left unmatched after pairing each `]` with the most recent
unmatched `[` (a `]` with no unmatched `[` before it is skipped).  Used to
state the claim's condition "some `[` is never matched". -/
def unmatchedOpens : List Char → Nat → Nat
  | [], cnt => cnt
  | c :: rest, cnt =>
      if c = '[' then unmatchedOpens rest (cnt + 1)
      else if c = ']' then unmatchedOpens rest (cnt - 1)
      else unmatchedOpens rest cnt

/-- Claim condition (a): every character is one of the seven instructions or
whitespace. -/
def condA (prog : List Char) : Bool :=
  prog.all (fun c => isLegalInstruction c || isSpaceChar c)

/-- Claim condition (b), non-failing form: every `[` is matched by some
later `]`. -/
def condB (prog : List Char) : Bool :=
  decide (unmatchedOpens prog 0 = 0)

/-- Claim condition (c): the program contains at least one `.` instruction. -/
def condC (prog : List Char) : Bool :=
  prog.any (fun c => c == '.')

/-! Basic helper lemmas about list indexing and association-list lookup. -/

theorem getD_of_drop : ∀ (prog : List Char) (idx : Nat) {c : Char} {rest : List Char},
    prog.drop idx = c :: rest → prog.getD idx ' ' = c := by
  intro prog
  induction prog with
  | nil => intro idx c rest h; simp at h
  | cons a l ih =>
    intro idx c rest h
    cases idx with
    | zero =>
      rw [List.drop_zero] at h
      cases h
      rfl
    | succ n =>
      rw [List.getD_cons_succ]
      exact ih n (by simpa using h)

theorem drop_succ_of_drop {prog : List Char} {idx : Nat} {c : Char} {rest : List Char}
    (h : prog.drop idx = c :: rest) : prog.drop (idx + 1) = rest := by
  have h1 : prog.drop (idx + 1) = (prog.drop idx).drop 1 := by
    rw [List.drop_drop]
  rw [h1, h, List.drop_one]
  rfl

theorem lt_length_of_drop {prog : List Char} {idx : Nat} {c : Char} {rest : List Char}
    (h : prog.drop idx = c :: rest) : idx < prog.length := by
  have h1 := List.length_drop idx prog
  rw [h] at h1
  simp at h1
  omega

theorem take_succ_of_drop : ∀ (prog : List Char) (idx : Nat) {c : Char} {rest : List Char},
    prog.drop idx = c :: rest → prog.take (idx + 1) = prog.take idx ++ [c] := by
  intro prog
  induction prog with
  | nil => intro idx c rest h; simp at h
  | cons a l ih =>
    intro idx c rest h
    cases idx with
    | zero =>
      rw [List.drop_zero] at h
      cases h
      rfl
    | succ n =>
      have h' : l.drop n = c :: rest := by simpa using h
      rw [List.take_succ_cons, List.take_succ_cons, ih n h']
      rfl

theorem lookup_isSome_of_mem_keys :
    ∀ (l : List (Nat × Nat)) (a : Nat), a ∈ l.map Prod.fst → ∃ b, l.lookup a = some b := by
  intro l
  induction l with
  | nil => intro a ha; simp at ha
  | cons p t ih =>
    intro a ha
    obtain ⟨k, v⟩ := p
    by_cases h : a = k
    · exact ⟨v, by simp [List.lookup, h]⟩
    · have ht : a ∈ t.map Prod.fst := by
        rcases (by simpa using ha) with h1 | h1
        · exact absurd h1 h
        · simpa using h1
      obtain ⟨b, hb⟩ := ih a ht
      refine ⟨b, ?_⟩
      have hbeq : (a == k) = false := by simpa using h
      simp [List.lookup, hbeq, hb]

theorem lookup_eq_some_iff_mem :
    ∀ (l : List (Nat × Nat)), (l.map Prod.fst).Nodup →
      ∀ (a b : Nat), l.lookup a = some b ↔ (a, b) ∈ l := by
  intro l
  induction l with
  | nil => intro _ a b; simp [List.lookup]
  | cons p t ih =>
    intro hnd a b
    obtain ⟨k, v⟩ := p
    have hnd' : k ∉ t.map Prod.fst ∧ (t.map Prod.fst).Nodup := by
      simpa [List.nodup_cons] using hnd
    by_cases h : a = k
    · subst h
      have hnotin : (a, b) ∉ t := fun hmem =>
        hnd'.1 (List.mem_map.mpr ⟨(a, b), hmem, rfl⟩)
      simp only [List.lookup, beq_self_eq_true]
      constructor
      · intro hv
        have : v = b := by injection hv
        subst this
        exact List.mem_cons_self _ _
      · intro hmem
        rcases List.mem_cons.mp hmem with h1 | h1
        · injection h1 with h2 h3
          rw [h3]
        · exact absurd h1 hnotin
    · have hbeq : (a == k) = false := by simpa using h
      simp only [List.lookup, hbeq]
      rw [ih hnd'.2 a b]
      constructor
      · intro hmem; exact List.mem_cons.mpr (Or.inr hmem)
      · intro hmem
        rcases List.mem_cons.mp hmem with h1 | h1
        · injection h1 with h2 h3; exact absurd h2 h
        · exact h1

/-! Lemmas about the bracket depth function. -/

theorem opens_succ {prog : List Char} {idx : Nat} {c : Char} {rest : List Char}
    (h : prog.drop idx = c :: rest) :
    opens prog (idx + 1) = opens prog idx + (if c = '[' then 1 else 0) := by
  unfold opens
  rw [take_succ_of_drop prog idx h, List.countP_append]
  simp [List.countP_cons, beq_iff_eq]

theorem closes_succ {prog : List Char} {idx : Nat} {c : Char} {rest : List Char}
    (h : prog.drop idx = c :: rest) :
    closes prog (idx + 1) = closes prog idx + (if c = ']' then 1 else 0) := by
  unfold closes
  rw [take_succ_of_drop prog idx h, List.countP_append]
  simp [List.countP_cons, beq_iff_eq]

theorem depth_succ_open {prog : List Char} {idx : Nat} {rest : List Char}
    (h : prog.drop idx = '[' :: rest) :
    depth prog (idx + 1) = depth prog idx + 1 := by
  unfold depth
  rw [opens_succ h, closes_succ h]
  simp
  ring

theorem depth_succ_close {prog : List Char} {idx : Nat} {rest : List Char}
    (h : prog.drop idx = ']' :: rest) :
    depth prog (idx + 1) = depth prog idx - 1 := by
  unfold depth
  rw [opens_succ h, closes_succ h]
  simp
  ring

theorem depth_succ_other {prog : List Char} {idx : Nat} {c : Char} {rest : List Char}
    (h : prog.drop idx = c :: rest) (h1 : c ≠ '[') (h2 : c ≠ ']') :
    depth prog (idx + 1) = depth prog idx := by
  unfold depth
  rw [opens_succ h, closes_succ h]
  simp [h1, h2]

theorem depth_zero (prog : List Char) : depth prog 0 = 0 := by
  simp [depth, opens, closes]

/-! The invariant maintained by the scanning loop of `bracemap_and_check`:
the open stack holds exactly the currently unclosed `[` positions (strictly
ordered, with their depths), and the bracemap holds matched pairs recorded in
both directions with distinct keys. -/

/-- Invariant on the `open_stack`: each entry is an unclosed `[` position;
the entry above `tail` was pushed at depth `tail.length` and the depth has
stayed strictly above that level ever since. -/
def StackInv (prog : List Char) (idx : Nat) : List Nat → Prop
  | [] => True
  | a :: tail =>
      a < idx ∧ prog.getD a ' ' = '[' ∧ depth prog a = (tail.length : Int) ∧
        (∀ k, a < k → k ≤ idx → (tail.length : Int) < depth prog k) ∧
        (∀ b ∈ tail, b < a) ∧ StackInv prog idx tail

/-- Invariant on the `bracemap`: it is a set of matched `[`/`]` pairs, each
recorded in both directions, with pairwise distinct keys that are all
already-scanned bracket positions not on the stack; conversely every scanned
bracket position is a key or still on the stack. -/
def BmInv (prog : List Char) (idx : Nat) (stack : List Nat) (bm : List (Nat × Nat)) : Prop :=
  (∃ pairs : List (Nat × Nat),
      bm = pairs.flatMap (fun p => [(p.2, p.1), (p.1, p.2)]) ∧
      ∀ p ∈ pairs, IsMatch prog p.1 p.2) ∧
  (bm.map Prod.fst).Nodup ∧
  (∀ x ∈ bm.map Prod.fst, x < idx ∧ x ∉ stack) ∧
  (∀ p, p < idx → (prog.getD p ' ' = '[' ∨ prog.getD p ' ' = ']') →
    p ∈ bm.map Prod.fst ∨ p ∈ stack)

/-- Combined invariant of the scanning loop at position `idx`. -/
def Inv (prog : List Char) (idx : Nat) (stack : List Nat) (bm : List (Nat × Nat)) : Prop :=
  depth prog idx = (stack.length : Int) ∧ StackInv prog idx stack ∧ BmInv prog idx stack bm

theorem stackInv_elem_lt {prog : List Char} {idx : Nat} :
    ∀ {stack : List Nat}, StackInv prog idx stack →
      ∀ a ∈ stack, a < idx ∧ prog.getD a ' ' = '[' := by
  intro stack
  induction stack with
  | nil => intro _ a ha; simp at ha
  | cons b tail ih =>
    intro h a ha
    obtain ⟨h1, h2, _, _, _, h6⟩ := h
    rcases List.mem_cons.mp ha with rfl | ha
    · exact ⟨h1, h2⟩
    · exact ih h6 a ha

theorem stackInv_mono {prog : List Char} {idx : Nat} :
    ∀ {stack : List Nat}, StackInv prog idx stack →
      (stack.length : Int) ≤ depth prog (idx + 1) → StackInv prog (idx + 1) stack := by
  intro stack
  induction stack with
  | nil => intro _ _; trivial
  | cons a tail ih =>
    intro h hd
    obtain ⟨h1, h2, h3, h4, h5, h6⟩ := h
    have hlen : ((a :: tail).length : Int) = (tail.length : Int) + 1 := by
      simp
    rw [hlen] at hd
    refine ⟨Nat.lt_succ_of_lt h1, h2, h3, ?_, h5, ih h6 (by omega)⟩
    intro k hk1 hk2
    rcases Nat.lt_or_ge k (idx + 1) with hk | hk
    · exact h4 k hk1 (by omega)
    · have : k = idx + 1 := by omega
      subst this
      omega

theorem inv_step_nobracket {prog : List Char} {idx : Nat} {c : Char} {rest : List Char}
    {stack : List Nat} {bm : List (Nat × Nat)}
    (hdrop : prog.drop idx = c :: rest) (h1 : c ≠ '[') (h2 : c ≠ ']')
    (hinv : Inv prog idx stack bm) : Inv prog (idx + 1) stack bm := by
  obtain ⟨hdepth, hstack, ⟨hpairs, hnd, hkeys, hcov⟩⟩ := hinv
  have hc : prog.getD idx ' ' = c := getD_of_drop prog idx hdrop
  have hd1 : depth prog (idx + 1) = depth prog idx := depth_succ_other hdrop h1 h2
  refine ⟨by rw [hd1, hdepth], stackInv_mono hstack (by rw [hd1, hdepth]), hpairs, hnd, ?_, ?_⟩
  · intro x hx
    exact ⟨Nat.lt_succ_of_lt (hkeys x hx).1, (hkeys x hx).2⟩
  · intro p hp hbr
    rcases Nat.lt_or_ge p idx with hp' | hp'
    · exact hcov p hp' hbr
    · have : p = idx := by omega
      subst this
      rw [hc] at hbr
      rcases hbr with h | h
      · exact absurd h h1
      · exact absurd h h2

theorem scanAux_inv (prog : List Char) :
    ∀ (rest : List Char) (idx : Nat) (stack : List Nat) (bm : List (Nat × Nat))
      (lc : Nat) (pr : Bool) (stack' : List Nat) (bm' : List (Nat × Nat)) (lc' : Nat) (pr' : Bool),
      prog.drop idx = rest → idx ≤ prog.length →
      Inv prog idx stack bm →
      scanAux rest idx stack bm lc pr = some (stack', bm', lc', pr') →
      Inv prog prog.length stack' bm' := by
  intro rest
  induction rest with
  | nil =>
    intro idx stack bm lc pr stack' bm' lc' pr' hdrop hle hinv hscan
    have hlen : idx = prog.length := by
      have h1 := List.length_drop idx prog
      rw [hdrop] at h1
      simp at h1
      omega
    simp only [scanAux, Option.some.injEq, Prod.mk.injEq] at hscan
    obtain ⟨h1, h2, _, _⟩ := hscan
    subst h1
    subst h2
    rw [← hlen]
    exact hinv
  | cons c rest ih =>
    intro idx stack bm lc pr stack' bm' lc' pr' hdrop hle hinv hscan
    have hidx : idx < prog.length := lt_length_of_drop hdrop
    have hc : prog.getD idx ' ' = c := getD_of_drop prog idx hdrop
    have hdrop' : prog.drop (idx + 1) = rest := drop_succ_of_drop hdrop
    simp only [scanAux] at hscan
    by_cases hdot : pr = false ∧ c = '.'
    · rw [if_pos hdot] at hscan
      refine ih (idx + 1) stack bm _ true stack' bm' lc' pr' hdrop' hidx ?_ hscan
      exact inv_step_nobracket hdrop (by rw [hdot.2]; decide) (by rw [hdot.2]; decide) hinv
    · rw [if_neg hdot] at hscan
      obtain ⟨hdepth, hstack, ⟨⟨pairs, hbme, hpm⟩, hnd, hkeys, hcov⟩⟩ := hinv
      by_cases hopen : c = '['
      · rw [if_pos hopen] at hscan
        subst hopen
        have hd1 : depth prog (idx + 1) = depth prog idx + 1 := depth_succ_open hdrop
        refine ih (idx + 1) (idx :: stack) bm _ pr stack' bm' lc' pr' hdrop' hidx ?_ hscan
        have helem := stackInv_elem_lt hstack
        refine ⟨?_, ?_, ⟨pairs, hbme, hpm⟩, hnd, ?_, ?_⟩
        · rw [hd1, hdepth]
          simp
        · refine ⟨Nat.lt_succ_self idx, hc, hdepth, ?_, fun b hb => (helem b hb).1, ?_⟩
          · intro k hk1 hk2
            have : k = idx + 1 := by omega
            subst this
            rw [hd1, hdepth]
            omega
          · exact stackInv_mono hstack (by rw [hd1, hdepth]; omega)
        · intro x hx
          refine ⟨Nat.lt_succ_of_lt (hkeys x hx).1, ?_⟩
          intro hmem
          have hxlt := (hkeys x hx).1
          rcases List.mem_cons.mp hmem with h | h
          · omega
          · exact (hkeys x hx).2 h
        · intro p hp hbr
          rcases Nat.lt_or_ge p idx with hp' | hp'
          · rcases hcov p hp' hbr with h | h
            · exact Or.inl h
            · exact Or.inr (List.mem_cons.mpr (Or.inr h))
          · have : p = idx := by omega
            subst this
            exact Or.inr (List.mem_cons.mpr (Or.inl rfl))
      · rw [if_neg hopen] at hscan
        by_cases hclose : c = ']'
        · rw [if_pos hclose] at hscan
          subst hclose
          cases stack with
          | nil => simp at hscan
          | cons a tail =>
            have hscan2 : scanAux rest (idx + 1) tail ((idx, a) :: (a, idx) :: bm)
                (legalBump ']' lc) pr = some (stack', bm', lc', pr') := hscan
            obtain ⟨ha_lt, ha_open, ha_depth, ha_range, ha_ord, htail⟩ := hstack
            have hd1 : depth prog (idx + 1) = depth prog idx - 1 := depth_succ_close hdrop
            have hdnew : depth prog (idx + 1) = (tail.length : Int) := by
              rw [hd1, hdepth]
              simp
            have hmatch : IsMatch prog a idx := by
              refine ⟨ha_lt, hidx, ha_open, hc, by rw [hdnew, ha_depth], ?_⟩
              intro k hk1 hk2
              rw [ha_depth]
              exact ha_range k hk1 hk2
            have helem := stackInv_elem_lt htail
            refine ih (idx + 1) tail ((idx, a) :: (a, idx) :: bm) _ pr stack' bm' lc' pr'
              hdrop' hidx ?_ hscan2
            refine ⟨hdnew, stackInv_mono htail (by rw [hdnew]), ?_, ?_, ?_, ?_⟩
            · refine ⟨(a, idx) :: pairs, ?_, ?_⟩
              · rw [List.flatMap_cons, hbme]
                rfl
              · intro p hp
                rcases List.mem_cons.mp hp with rfl | hp
                · exact hmatch
                · exact hpm p hp
            · have hanotkey : a ∉ bm.map Prod.fst := by
                intro hmem
                exact (hkeys a hmem).2 (List.mem_cons.mpr (Or.inl rfl))
              have hidxnotkey : idx ∉ bm.map Prod.fst := by
                intro hmem
                exact absurd (hkeys idx hmem).1 (by omega)
              simp only [List.map_cons, List.nodup_cons]
              refine ⟨?_, hanotkey, hnd⟩
              intro hmem
              rcases List.mem_cons.mp hmem with h | h
              · exact absurd h (by omega : idx ≠ a)
              · exact hidxnotkey h
            · intro x hx
              simp only [List.map_cons, List.mem_cons] at hx
              rcases hx with rfl | rfl | hx
              · refine ⟨Nat.lt_succ_self x, fun hmem => ?_⟩
                have := (helem x hmem).1
                omega
              · refine ⟨by omega, fun hmem => ?_⟩
                exact absurd (ha_ord x hmem) (by omega)
              · refine ⟨Nat.lt_succ_of_lt (hkeys x hx).1, fun hmem => ?_⟩
                exact (hkeys x hx).2 (List.mem_cons.mpr (Or.inr hmem))
            · intro p hp hbr
              simp only [List.map_cons, List.mem_cons]
              rcases Nat.lt_or_ge p idx with hp' | hp'
              · rcases hcov p hp' hbr with h | h
                · exact Or.inl (Or.inr (Or.inr h))
                · rcases List.mem_cons.mp h with rfl | h
                  · exact Or.inl (Or.inr (Or.inl rfl))
                  · exact Or.inr h
              · have : p = idx := by omega
                subst this
                exact Or.inl (Or.inl rfl)
        · rw [if_neg hclose] at hscan
          refine ih (idx + 1) stack bm _ pr stack' bm' lc' pr' hdrop' hidx ?_ hscan
          exact inv_step_nobracket hdrop hopen hclose
            ⟨hdepth, hstack, ⟨pairs, hbme, hpm⟩, hnd, hkeys, hcov⟩

/-- The invariant holds at the start of the scan. -/
theorem inv_init (prog : List Char) : Inv prog 0 [] [] := by
  refine ⟨by simp [depth_zero], trivial, ⟨[], rfl, by simp⟩, by simp, by simp, ?_⟩
  intro p hp
  omega

/-! What the scan computes in its other three accumulators. -/

theorem scanAux_legalCount :
    ∀ (rest : List Char) (idx : Nat) (stack : List Nat) (bm : List (Nat × Nat)) (lc : Nat)
      (pr : Bool) {stack' : List Nat} {bm' : List (Nat × Nat)} {lc' : Nat} {pr' : Bool},
      scanAux rest idx stack bm lc pr = some (stack', bm', lc', pr') →
      lc' = lc + rest.countP (fun c => isLegalInstruction c || isSpaceChar c) := by
  intro rest
  induction rest with
  | nil =>
    intro idx stack bm lc pr stack' bm' lc' pr' h
    simp only [scanAux, Option.some.injEq, Prod.mk.injEq] at h
    simp [h.2.2.1]
  | cons c rest ih =>
    intro idx stack bm lc pr stack' bm' lc' pr' h
    rw [List.countP_cons]
    have key : ∀ (st2 : List Nat) (bm2 : List (Nat × Nat)) (pr2 : Bool),
        scanAux rest (idx + 1) st2 bm2 (legalBump c lc) pr2 = some (stack', bm', lc', pr') →
        lc' = lc + (rest.countP (fun c => isLegalInstruction c || isSpaceChar c) +
          if (isLegalInstruction c || isSpaceChar c) = true then 1 else 0) := by
      intro st2 bm2 pr2 hh
      have h2 := ih (idx + 1) st2 bm2 (legalBump c lc) pr2 hh
      unfold legalBump at h2
      split_ifs at h2 with hb <;> simp [hb] <;> omega
    simp only [scanAux] at h
    by_cases hdot : pr = false ∧ c = '.'
    · rw [if_pos hdot] at h
      exact key _ _ _ h
    · rw [if_neg hdot] at h
      by_cases hopen : c = '['
      · rw [if_pos hopen] at h
        exact key _ _ _ h
      · rw [if_neg hopen] at h
        by_cases hclose : c = ']'
        · rw [if_pos hclose] at h
          cases stack with
          | nil => simp at h
          | cons a tail => exact key _ _ _ h
        · rw [if_neg hclose] at h
          exact key _ _ _ h

theorem scanAux_prints :
    ∀ (rest : List Char) (idx : Nat) (stack : List Nat) (bm : List (Nat × Nat)) (lc : Nat)
      (pr : Bool) {stack' : List Nat} {bm' : List (Nat × Nat)} {lc' : Nat} {pr' : Bool},
      scanAux rest idx stack bm lc pr = some (stack', bm', lc', pr') →
      pr' = (pr || rest.any (fun c => c == '.')) := by
  intro rest
  induction rest with
  | nil =>
    intro idx stack bm lc pr stack' bm' lc' pr' h
    simp only [scanAux, Option.some.injEq, Prod.mk.injEq] at h
    simp [h.2.2.2]
  | cons c rest ih =>
    intro idx stack bm lc pr stack' bm' lc' pr' h
    rw [List.any_cons]
    simp only [scanAux] at h
    by_cases hdot : pr = false ∧ c = '.'
    · rw [if_pos hdot] at h
      have h2 := ih _ _ _ _ _ h
      rw [hdot.1, hdot.2]
      simp [h2]
    · rw [if_neg hdot] at h
      have hgoal : ∀ (st2 : List Nat) (bm2 : List (Nat × Nat)),
          scanAux rest (idx + 1) st2 bm2 (legalBump c lc) pr = some (stack', bm', lc', pr') →
          pr' = (pr || ((c == '.') || rest.any (fun c => c == '.'))) := by
        intro st2 bm2 hh
        have h2 := ih _ _ _ _ _ hh
        rw [not_and_or] at hdot
        rcases hdot with hpr | hcd
        · have : pr = true := by
            cases pr
            · exact absurd rfl hpr
            · rfl
          simp [this] at h2 ⊢
          exact h2
        · have : (c == '.') = false := by
            simpa using hcd
          rw [this]
          simpa using h2
      by_cases hopen : c = '['
      · rw [if_pos hopen] at h
        exact hgoal _ _ h
      · rw [if_neg hopen] at h
        by_cases hclose : c = ']'
        · rw [if_pos hclose] at h
          cases stack with
          | nil => simp at h
          | cons a tail => exact hgoal _ _ h
        · rw [if_neg hclose] at h
          exact hgoal _ _ h

theorem scanAux_stackLen :
    ∀ (rest : List Char) (idx : Nat) (stack : List Nat) (bm : List (Nat × Nat)) (lc : Nat)
      (pr : Bool) {stack' : List Nat} {bm' : List (Nat × Nat)} {lc' : Nat} {pr' : Bool},
      scanAux rest idx stack bm lc pr = some (stack', bm', lc', pr') →
      stack'.length = unmatchedOpens rest stack.length := by
  intro rest
  induction rest with
  | nil =>
    intro idx stack bm lc pr stack' bm' lc' pr' h
    simp only [scanAux, Option.some.injEq, Prod.mk.injEq] at h
    rw [← h.1]
    rfl
  | cons c rest ih =>
    intro idx stack bm lc pr stack' bm' lc' pr' h
    simp only [scanAux] at h
    by_cases hdot : pr = false ∧ c = '.'
    · rw [if_pos hdot] at h
      have h2 := ih _ _ _ _ _ h
      rw [h2]
      have h3 : c ≠ '[' := by rw [hdot.2]; decide
      have h4 : c ≠ ']' := by rw [hdot.2]; decide
      simp [unmatchedOpens, h3, h4]
    · rw [if_neg hdot] at h
      by_cases hopen : c = '['
      · rw [if_pos hopen] at h
        have h2 := ih _ _ _ _ _ h
        rw [h2]
        subst hopen
        simp [unmatchedOpens]
      · rw [if_neg hopen] at h
        by_cases hclose : c = ']'
        · rw [if_pos hclose] at h
          subst hclose
          cases stack with
          | nil => simp at h
          | cons a tail =>
            have h2 := ih _ _ _ _ _ h
            rw [h2]
            simp [unmatchedOpens]
        · rw [if_neg hclose] at h
          have h2 := ih _ _ _ _ _ h
          rw [h2]
          simp [unmatchedOpens, hopen, hclose]

/-! Reading off `bracemap_and_check` from a completed scan. -/

theorem check_of_scan {prog : List Char} {stack' : List Nat} {bm' : List (Nat × Nat)}
    {lc' : Nat} {pr' : Bool}
    (hs : scanAux prog 0 [] [] 0 false = some (stack', bm', lc', pr')) :
    bracemap_and_check prog =
      (some bm', decide (lc' = prog.length) && stack'.isEmpty && pr') := by
  unfold bracemap_and_check
  rw [hs]

theorem scan_of_check {prog : List Char} {bm : List (Nat × Nat)} {b : Bool}
    (h : bracemap_and_check prog = (some bm, b)) :
    ∃ stack' lc' pr', scanAux prog 0 [] [] 0 false = some (stack', bm, lc', pr') := by
  rcases hs : scanAux prog 0 [] [] 0 false with _ | ⟨stack', bm2, lc', pr'⟩
  · unfold bracemap_and_check at h
    rw [hs] at h
    simp at h
  · have h2 := check_of_scan hs
    rw [h2] at h
    simp only [Prod.mk.injEq, Option.some.injEq] at h
    exact ⟨stack', lc', pr', by rw [h.1]⟩

theorem inv_of_scan {prog : List Char} {stack' : List Nat} {bm' : List (Nat × Nat)}
    {lc' : Nat} {pr' : Bool}
    (hs : scanAux prog 0 [] [] 0 false = some (stack', bm', lc', pr')) :
    Inv prog prog.length stack' bm' :=
  scanAux_inv prog prog 0 [] [] 0 false stack' bm' lc' pr' (by simp) (Nat.zero_le _)
    (inv_init prog) hs

/-! Consequences for the returned bracemap: symmetry, matchedness, and
definedness at every bracket position of an eligible program. -/

theorem lookup_symm_of_bmInv {prog : List Char} {idx : Nat} {stack : List Nat}
    {bm : List (Nat × Nat)} (h : BmInv prog idx stack bm) (i j : Nat) :
    bm.lookup i = some j ↔ bm.lookup j = some i := by
  obtain ⟨⟨pairs, hbme, _⟩, hnd, _, _⟩ := h
  have hmemsym : ∀ a b : Nat, (a, b) ∈ bm → (b, a) ∈ bm := by
    intro a b hab
    rw [hbme] at hab ⊢
    rcases List.mem_flatMap.mp hab with ⟨p, hp, hmem⟩
    apply List.mem_flatMap.mpr
    refine ⟨p, hp, ?_⟩
    simp only [List.mem_cons, List.mem_nil_iff, or_false] at hmem ⊢
    rcases hmem with h1 | h1
    · injection h1 with ha hb
      right
      rw [ha, hb]
    · injection h1 with ha hb
      left
      rw [ha, hb]
  constructor
  · intro hl
    exact (lookup_eq_some_iff_mem bm hnd j i).mpr
      (hmemsym i j ((lookup_eq_some_iff_mem bm hnd i j).mp hl))
  · intro hl
    exact (lookup_eq_some_iff_mem bm hnd i j).mpr
      (hmemsym j i ((lookup_eq_some_iff_mem bm hnd j i).mp hl))

theorem lookup_match_of_bmInv {prog : List Char} {idx : Nat} {stack : List Nat}
    {bm : List (Nat × Nat)} (h : BmInv prog idx stack bm) (i j : Nat)
    (hl : bm.lookup i = some j) : IsMatch prog (min i j) (max i j) := by
  obtain ⟨⟨pairs, hbme, hpm⟩, hnd, _, _⟩ := h
  have hmem := (lookup_eq_some_iff_mem bm hnd i j).mp hl
  rw [hbme] at hmem
  rcases List.mem_flatMap.mp hmem with ⟨p, hp, hmem2⟩
  have hm := hpm p hp
  have hlt : p.1 < p.2 := hm.1
  simp only [List.mem_cons, List.mem_nil_iff, or_false] at hmem2
  rcases hmem2 with h1 | h1
  · injection h1 with hi hj
    rw [hi, hj, min_eq_right (le_of_lt hlt), max_eq_left (le_of_lt hlt)]
    exact hm
  · injection h1 with hi hj
    rw [hi, hj, min_eq_left (le_of_lt hlt), max_eq_right (le_of_lt hlt)]
    exact hm

theorem lookup_defined_of_check {prog : List Char} {bm : List (Nat × Nat)}
    (h : bracemap_and_check prog = (some bm, true)) :
    ∀ p, p < prog.length → (prog.getD p ' ' = '[' ∨ prog.getD p ' ' = ']') →
      ∃ j, bm.lookup p = some j := by
  obtain ⟨stack', lc', pr', hs⟩ := scan_of_check h
  have hinv := inv_of_scan hs
  have hcheck := check_of_scan hs
  rw [hcheck] at h
  simp only [Prod.mk.injEq, Option.some.injEq] at h
  have hempty : stack'.isEmpty = true := by
    have := h.2
    simp only [Bool.and_eq_true] at this
    exact this.1.2
  have hst : stack' = [] := List.isEmpty_iff.mp hempty
  obtain ⟨_, _, _, _, _, hcov⟩ := hinv
  intro p hp hbr
  rcases hcov p hp hbr with hk | hk
  · exact lookup_isSome_of_mem_keys bm p hk
  · rw [hst] at hk
    simp at hk

/-! Per-instruction behaviour of `step`. -/

theorem step_jump_open {prog : List Char} {bm : List (Nat × Nat)} {s : St} {j : Nat}
    (hc : prog.getD s.codeptr ' ' = '[') (hcell : s.memory.getD s.memptr 0 = 0)
    (hl : bm.lookup s.codeptr = some j) : (step prog bm s).codeptr = j + 1 := by
  have hc' := hc
  have hcell' := hcell
  simp only [List.getD_eq_getElem?_getD] at hc' hcell'
  simp [step, hc', hcell', hl]

theorem step_jump_close {prog : List Char} {bm : List (Nat × Nat)} {s : St} {j : Nat}
    (hc : prog.getD s.codeptr ' ' = ']') (hcell : s.memory.getD s.memptr 0 ≠ 0)
    (hl : bm.lookup s.codeptr = some j) : (step prog bm s).codeptr = j + 1 := by
  have hc' := hc
  have hcell' := hcell
  simp only [List.getD_eq_getElem?_getD] at hc' hcell'
  simp [step, hc', hcell', hl]

theorem step_advance {prog : List Char} {bm : List (Nat × Nat)} {s : St}
    (h1 : ¬(prog.getD s.codeptr ' ' = '[' ∧ s.memory.getD s.memptr 0 = 0))
    (h2 : ¬(prog.getD s.codeptr ' ' = ']' ∧ s.memory.getD s.memptr 0 ≠ 0)) :
    (step prog bm s).codeptr = s.codeptr + 1 := by
  simp only [step]
  split_ifs <;> rfl

theorem step_plus_memory {prog : List Char} {bm : List (Nat × Nat)} {s : St}
    (hc : prog.getD s.codeptr ' ' = '+') :
    (step prog bm s).memory =
      s.memory.set s.memptr
        (if s.memory.getD s.memptr 0 < 255 then s.memory.getD s.memptr 0 + 1 else 0) := by
  have hc' := hc
  simp only [List.getD_eq_getElem?_getD] at hc'
  simp [step, hc']

theorem step_minus_memory {prog : List Char} {bm : List (Nat × Nat)} {s : St}
    (hc : prog.getD s.codeptr ' ' = '-') :
    (step prog bm s).memory =
      s.memory.set s.memptr
        (if 0 < s.memory.getD s.memptr 0 then s.memory.getD s.memptr 0 - 1 else 255) := by
  have hc' := hc
  simp only [List.getD_eq_getElem?_getD] at hc'
  simp [step, hc']

theorem step_right_state {prog : List Char} {bm : List (Nat × Nat)} {s : St}
    (hc : prog.getD s.codeptr ' ' = '>') :
    step prog bm s =
      { s with
        memory := if s.memptr = s.memory.length - 1 then s.memory ++ [0] else s.memory,
        memptr := s.memptr + 1,
        codeptr := s.codeptr + 1 } := by
  have hc' := hc
  simp only [List.getD_eq_getElem?_getD] at hc'
  simp [step, hc']

theorem step_left_state {prog : List Char} {bm : List (Nat × Nat)} {s : St}
    (hc : prog.getD s.codeptr ' ' = '<') :
    step prog bm s =
      { s with
        memptr := if s.memptr = 0 then s.memory.length - 1 else s.memptr - 1,
        codeptr := s.codeptr + 1 } := by
  have hc' := hc
  simp only [List.getD_eq_getElem?_getD] at hc'
  simp [step, hc']

theorem step_dot_state {prog : List Char} {bm : List (Nat × Nat)} {s : St}
    (hc : prog.getD s.codeptr ' ' = '.') :
    step prog bm s =
      { s with
        result := s.result ++ [s.memory.getD s.memptr 0],
        codeptr := s.codeptr + 1 } := by
  have hc' := hc
  simp only [List.getD_eq_getElem?_getD] at hc'
  simp [step, hc']

/-- The memory after one step is the old memory, an in-place update at the
memory pointer, or the old memory with one zero cell appended. -/
theorem step_memory_cases (prog : List Char) (bm : List (Nat × Nat)) (s : St) :
    (step prog bm s).memory = s.memory ∨
    (step prog bm s).memory =
      s.memory.set s.memptr
        (if s.memory.getD s.memptr 0 < 255 then s.memory.getD s.memptr 0 + 1 else 0) ∨
    (step prog bm s).memory =
      s.memory.set s.memptr
        (if 0 < s.memory.getD s.memptr 0 then s.memory.getD s.memptr 0 - 1 else 255) ∨
    (step prog bm s).memory = s.memory ++ [0] := by
  simp only [step]
  split_ifs <;> simp

/-! Invariants preserved by every step: memory length never shrinks, the
memory pointer stays in bounds, and cell values stay at most 255. -/

theorem length_mono_step (prog : List Char) (bm : List (Nat × Nat)) (s : St) :
    s.memory.length ≤ (step prog bm s).memory.length := by
  rcases step_memory_cases prog bm s with h | h | h | h <;> rw [h] <;> simp

theorem memptr_lt_step {prog : List Char} {bm : List (Nat × Nat)} {s : St}
    (h : s.memptr < s.memory.length) :
    (step prog bm s).memptr < (step prog bm s).memory.length := by
  simp only [step]
  split_ifs <;> first | omega | (simp; omega)

theorem getD_le_of_all : ∀ (l : List Nat), (∀ v ∈ l, v ≤ 255) → ∀ n, l.getD n 0 ≤ 255 := by
  intro l
  induction l with
  | nil => intro _ n; cases n <;> simp [List.getD]
  | cons a t ih =>
    intro h n
    cases n with
    | zero =>
      rw [List.getD_cons_zero]
      exact h a (List.mem_cons_self a t)
    | succ m =>
      rw [List.getD_cons_succ]
      exact ih (fun v hv => h v (List.mem_cons_of_mem a hv)) m

theorem cells_le_step {prog : List Char} {bm : List (Nat × Nat)} {s : St}
    (h : ∀ v ∈ s.memory, v ≤ 255) : ∀ v ∈ (step prog bm s).memory, v ≤ 255 := by
  have hcell := getD_le_of_all s.memory h s.memptr
  rcases step_memory_cases prog bm s with hm | hm | hm | hm <;> rw [hm] <;> intro v hv
  · exact h v hv
  · rcases List.mem_or_eq_of_mem_set hv with hv | hv
    · exact h v hv
    · subst hv
      split_ifs <;> omega
  · rcases List.mem_or_eq_of_mem_set hv with hv | hv
    · exact h v hv
    · subst hv
      split_ifs <;> omega
  · rcases List.mem_append.mp hv with hv | hv
    · exact h v hv
    · simp at hv
      omega

/-! The same invariants along any execution: state after `m` steps. -/

theorem cells_le_iterate (prog : List Char) (bm : List (Nat × Nat)) :
    ∀ m, ∀ v ∈ ((step prog bm)^[m] initSt).memory, v ≤ 255 := by
  intro m
  induction m with
  | zero =>
    intro v hv
    simp only [Function.iterate_zero_apply, initSt] at hv
    rw [List.eq_of_mem_replicate hv]
    omega
  | succ k ih =>
    rw [Function.iterate_succ_apply']
    exact cells_le_step ih

theorem memptr_lt_iterate (prog : List Char) (bm : List (Nat × Nat)) :
    ∀ m, ((step prog bm)^[m] initSt).memptr < ((step prog bm)^[m] initSt).memory.length := by
  intro m
  induction m with
  | zero =>
    simp [initSt]
  | succ k ih =>
    rw [Function.iterate_succ_apply']
    exact memptr_lt_step ih

/-! Lemmas about the interpreter loop. -/

theorem run_timeout {prog : List Char} {bm : List (Nat × Nat)} {elapsed : Nat → Nat}
    {fuel n : Nat} {s : St} (hc : s.codeptr < prog.length) (ht : 60 < elapsed n) :
    run prog bm elapsed (fuel + 1) n s = some none := by
  simp only [run]
  rw [if_pos hc, if_pos ht]

/-- Any property preserved by `step` and true of the start state holds for
the final state of a completed run. -/
theorem run_final_pres {prog : List Char} {bm : List (Nat × Nat)} {elapsed : Nat → Nat}
    (P : St → Prop) (hstep : ∀ s, P s → P (step prog bm s)) :
    ∀ (fuel n : Nat) (s t : St), P s →
      run prog bm elapsed fuel n s = some (some t) → P t := by
  intro fuel
  induction fuel with
  | zero =>
    intro n s t _ h
    simp [run] at h
  | succ k ih =>
    intro n s t hP h
    simp only [run] at h
    split_ifs at h
    · simp at h
    · exact ih (n + 1) _ t (hstep s hP) h
    · simp only [Option.some.injEq] at h
      rw [← h]
      exact hP

/-! Helper lemmas for the eligibility characterisation. -/

theorem legalBump_eq {c : Char} (h : (isLegalInstruction c || isSpaceChar c) = true)
    (lc : Nat) : legalBump c lc = lc + 1 := by
  unfold legalBump
  rw [h]
  rfl

theorem decode_absent_of_not_bf {prog : List Char} {elapsed : Nat → Nat} {fuel : Nat}
    (h : (bracemap_and_check prog).2 = false) :
    decode elapsed fuel prog = some none := by
  unfold decode runProgram
  rcases hbc : bracemap_and_check prog with ⟨opt, flag⟩
  rw [hbc] at h
  simp only at h
  subst h
  rfl

/-- The eligibility flag holds exactly when: every character is legal or
whitespace, every `[` is matched, a `.` occurs, and additionally the scan
never hit a `]` with an empty stack. -/
theorem isbf_iff (prog : List Char) :
    (bracemap_and_check prog).2 = true ↔
      (condA prog = true ∧ condB prog = true ∧ condC prog = true ∧
        (scanAux prog 0 [] [] 0 false).isSome = true) := by
  rcases hs : scanAux prog 0 [] [] 0 false with _ | ⟨st', bm', lc', pr'⟩
  · simp [bracemap_and_check, hs]
  · have hlc := scanAux_legalCount prog 0 [] [] 0 false hs
    have hpr := scanAux_prints prog 0 [] [] 0 false hs
    have hsl := scanAux_stackLen prog 0 [] [] 0 false hs
    simp only [Nat.zero_add, Bool.false_or] at hlc hpr
    have hsl' : st'.length = unmatchedOpens prog 0 := hsl
    rw [check_of_scan hs]
    simp only [Bool.and_eq_true, decide_eq_true_eq, List.isEmpty_iff, Option.isSome_some,
      and_true]
    unfold condA condB condC
    constructor
    · rintro ⟨⟨h1, h2⟩, h3⟩
      refine ⟨?_, ?_, ?_⟩
      · rw [List.all_eq_true]
        intro x hx
        have := List.countP_eq_length.mp (by rw [← hlc]; exact h1.symm ▸ rfl)
        exact this x hx
      · rw [decide_eq_true_eq, ← hsl', h2]
        rfl
      · rw [hpr] at h3
        exact h3
    · rintro ⟨h1, h2, h3⟩
      refine ⟨⟨?_, ?_⟩, ?_⟩
      · rw [hlc]
        exact List.countP_eq_length.mpr (List.all_eq_true.mp h1)
      · rw [decide_eq_true_eq] at h2
        rw [h2] at hsl'
        exact List.eq_nil_of_length_eq_zero hsl'
      · rw [hpr]
        exact h3

/-! Computation lemmas for the tape-growth program `'>' * k ++ "."`. -/

theorem getD_growProg_lt : ∀ {k i : Nat}, i < k →
    (List.replicate k '>' ++ ['.']).getD i ' ' = '>' := by
  intro k
  induction k with
  | zero => intro i h; omega
  | succ k ih =>
    intro i h
    rw [List.replicate_succ, List.cons_append]
    cases i with
    | zero => rfl
    | succ m =>
      rw [List.getD_cons_succ]
      exact ih (by omega)

theorem getD_growProg_eq : ∀ {k : Nat}, (List.replicate k '>' ++ ['.']).getD k ' ' = '.' := by
  intro k
  induction k with
  | zero => rfl
  | succ k ih =>
    rw [List.replicate_succ, List.cons_append, List.getD_cons_succ]
    exact ih

theorem getD_replicate_zero : ∀ (n i : Nat), (List.replicate n (0 : Nat)).getD i 0 = 0 := by
  intro n
  induction n with
  | zero => intro i; cases i <;> rfl
  | succ n ih =>
    intro i
    rw [List.replicate_succ]
    cases i with
    | zero => rfl
    | succ m =>
      rw [List.getD_cons_succ]
      exact ih m

theorem length_growProg (k : Nat) : (List.replicate k '>' ++ ['.']).length = k + 1 := by
  simp

theorem scanAux_growProg : ∀ (k idx : Nat) (stack : List Nat) (bm : List (Nat × Nat))
    (lc : Nat) (pr : Bool),
    scanAux (List.replicate k '>' ++ ['.']) idx stack bm lc pr =
      some (stack, bm, lc + (k + 1), true) := by
  intro k
  induction k with
  | zero =>
    intro idx stack bm lc pr
    show scanAux ['.'] idx stack bm lc pr = some (stack, bm, lc + 1, true)
    cases pr
    · simp [scanAux, legalBump, isLegalInstruction, isSpaceChar]
    · simp [scanAux, legalBump, isLegalInstruction, isSpaceChar]
  | succ k ih =>
    intro idx stack bm lc pr
    rw [List.replicate_succ, List.cons_append]
    simp only [scanAux, legalBump, isLegalInstruction, isSpaceChar]
    norm_num
    rw [if_neg (fun (h : pr = false ∧ ('>' : Char) = '.') => absurd h.2 (by decide)),
      if_neg (by decide : ¬('>' : Char) = '['), if_neg (by decide : ¬('>' : Char) = ']'),
      ih (idx + 1) stack bm (lc + 1) pr]
    have harith : lc + 1 + (k + 1) = lc + (k + 1 + 1) := by omega
    rw [harith]

theorem check_growProg (k : Nat) :
    bracemap_and_check (List.replicate k '>' ++ ['.']) = (some [], true) := by
  unfold bracemap_and_check
  rw [scanAux_growProg k 0 [] [] 0 false]
  simp

theorem run_growProg {k : Nat} (hk : 100 ≤ k) :
    ∀ (d m n : Nat), m + d = k →
      run (List.replicate k '>' ++ ['.']) [] (fun _ => 0) (d + 2) n
        ⟨[], List.replicate (max 100 (m + 1)) 0, m, m⟩ =
      some (some ⟨[0], List.replicate (k + 1) 0, k + 1, k⟩) := by
  intro d
  induction d with
  | zero =>
    intro m n hm
    have hm' : m = k := by omega
    subst hm'
    have hmax : max 100 (m + 1) = m + 1 := Nat.max_eq_right (by omega)
    rw [hmax]
    simp only [run]
    rw [if_pos (by rw [length_growProg]; omega), if_neg (by omega)]
    have hstep : step (List.replicate m '>' ++ ['.']) []
        ⟨[], List.replicate (m + 1) 0, m, m⟩ = ⟨[0], List.replicate (m + 1) 0, m + 1, m⟩ := by
      have h0 := @step_dot_state (List.replicate m '>' ++ ['.']) []
        ⟨[], List.replicate (m + 1) 0, m, m⟩ (by exact getD_growProg_eq)
      rw [h0]
      simp [getD_replicate_zero]
    rw [hstep]
    simp only [run]
    rw [if_neg (by rw [length_growProg]; omega)]
  | succ d ih =>
    intro m n hm
    have hmk : m < k := by omega
    simp only [run]
    rw [if_pos (by rw [length_growProg]; omega), if_neg (by omega)]
    have hstep : step (List.replicate k '>' ++ ['.']) []
        ⟨[], List.replicate (max 100 (m + 1)) 0, m, m⟩ =
        ⟨[], List.replicate (max 100 (m + 2)) 0, m + 1, m + 1⟩ := by
      have h0 := @step_right_state (List.replicate k '>' ++ ['.']) []
        ⟨[], List.replicate (max 100 (m + 1)) 0, m, m⟩ (by exact getD_growProg_lt hmk)
      rw [h0]
      simp only [List.length_replicate]
      rcases Nat.lt_or_ge m 99 with h99 | h99
      · have hm1 : max 100 (m + 1) = 100 := Nat.max_eq_left (by omega)
        have hm2 : max 100 (m + 2) = 100 := Nat.max_eq_left (by omega)
        rw [hm1, hm2, if_neg (by omega)]
      · have hm1 : max 100 (m + 1) = m + 1 := Nat.max_eq_right (by omega)
        have hm2 : max 100 (m + 2) = m + 2 := Nat.max_eq_right (by omega)
        rw [hm1, hm2, if_pos (by omega), ← List.replicate_succ']
    rw [hstep]
    exact ih (m + 1) (n + 1) (by omega)

theorem countP_range_past99 : ∀ (k : Nat), 99 ≤ k →
    (List.range k).countP (fun i => decide (99 ≤ i)) = k - 99 := by
  intro k
  induction k with
  | zero => intro h; omega
  | succ k ih =>
    intro hk
    rcases Nat.lt_or_ge k 99 with h | h
    · have hk' : k = 98 := by omega
      subst hk'
      decide
    · rw [List.range_succ, List.countP_append, ih h]
      simp [h]
      omega

/-! The claims. -/

/-- C1: an `[` with a zero current cell jumps to the bracket-table target and
the unconditional increment lands one past it; an `]` with a nonzero cell
likewise lands on the table target plus one (the first loop-body
instruction); in all other cases the instruction pointer advances by exactly
one; and `decode "+++[-]."` returns the one-character output with code
point 0. -/
theorem jump_lands_one_past_match :
    (∀ (prog : List Char) (bm : List (Nat × Nat)) (s : St) (j : Nat),
        prog.getD s.codeptr ' ' = '[' → s.memory.getD s.memptr 0 = 0 →
        bm.lookup s.codeptr = some j → (step prog bm s).codeptr = j + 1) ∧
    (∀ (prog : List Char) (bm : List (Nat × Nat)) (s : St) (j : Nat),
        prog.getD s.codeptr ' ' = ']' → s.memory.getD s.memptr 0 ≠ 0 →
        bm.lookup s.codeptr = some j → (step prog bm s).codeptr = j + 1) ∧
    (∀ (prog : List Char) (bm : List (Nat × Nat)) (s : St),
        ¬(prog.getD s.codeptr ' ' = '[' ∧ s.memory.getD s.memptr 0 = 0) →
        ¬(prog.getD s.codeptr ' ' = ']' ∧ s.memory.getD s.memptr 0 ≠ 0) →
        (step prog bm s).codeptr = s.codeptr + 1) ∧
    decode (fun _ => 0) 20 ['+', '+', '+', '[', '-', ']', '.'] = some (some [0]) :=
  ⟨fun _ _ _ _ hc hcell hl => step_jump_open hc hcell hl,
   fun _ _ _ _ hc hcell hl => step_jump_close hc hcell hl,
   fun _ _ _ h1 h2 => step_advance h1 h2,
   by decide⟩

theorem jump_lands_one_past_match_witness :
    (step ['['] [(0, 5)] ⟨[], [0], 0, 0⟩).codeptr = 6 ∧
    (step [']'] [(0, 4)] ⟨[], [7], 0, 0⟩).codeptr = 5 ∧
    (step ['+'] [] ⟨[], [0], 0, 0⟩).codeptr = 1 :=
  ⟨jump_lands_one_past_match.1 ['['] [(0, 5)] ⟨[], [0], 0, 0⟩ 5 (by decide) (by decide)
      (by decide),
   jump_lands_one_past_match.2.1 [']'] [(0, 4)] ⟨[], [7], 0, 0⟩ 4 (by decide) (by decide)
      (by decide),
   jump_lands_one_past_match.2.2.1 ['+'] [] ⟨[], [0], 0, 0⟩ (by decide) (by decide)⟩

/-- C2, counterexample: for the input `"]."` every character is a legal
instruction, no `[` is unmatched (there is none), and a `.` is present, yet
the program is not eligible — the three conditions alone are not equivalent
to eligibility. -/
theorem three_conditions_not_sufficient :
    condA [']', '.'] = true ∧ condB [']', '.'] = true ∧ condC [']', '.'] = true ∧
    (bracemap_and_check [']', '.']).2 = false := by
  decide

/-- C2, amended: decode returns the absent result whenever any of the three
conditions fails, and eligibility holds exactly when all three conditions
hold and additionally the scan never meets a `]` with an empty stack (every
`]` has an opener). -/
theorem eligibility_characterisation :
    (∀ (prog : List Char) (elapsed : Nat → Nat) (fuel : Nat),
        (condA prog = false ∨ condB prog = false ∨ condC prog = false) →
        decode elapsed fuel prog = some none) ∧
    (∀ prog : List Char,
        (bracemap_and_check prog).2 = true ↔
          (condA prog = true ∧ condB prog = true ∧ condC prog = true ∧
            (scanAux prog 0 [] [] 0 false).isSome = true)) := by
  constructor
  · intro prog elapsed fuel h
    apply decode_absent_of_not_bf
    cases hb : (bracemap_and_check prog).2 with
    | false => rfl
    | true =>
      obtain ⟨ha, hbb, hcc, _⟩ := (isbf_iff prog).mp hb
      rcases h with h | h | h
      · rw [h] at ha; cases ha
      · rw [h] at hbb; cases hbb
      · rw [h] at hcc; cases hcc
  · exact isbf_iff

theorem eligibility_characterisation_witness :
    decode (fun _ => 0) 5 ['+', '>', '+', '<'] = some none :=
  eligibility_characterisation.1 ['+', '>', '+', '<'] (fun _ => 0) 5 (by decide)

set_option maxRecDepth 10000 in
/-- C3: `+` increments the current cell and wraps 255 to 0, `-` decrements
and wraps 0 to 255; along any execution from the initial state every cell
value stays at most 255; `decode ("+"*256 ++ ".")` outputs code point 0 and
`decode "+."` outputs code point 1. -/
theorem cell_wraparound :
    (∀ (prog : List Char) (bm : List (Nat × Nat)) (s : St),
        prog.getD s.codeptr ' ' = '+' →
        (step prog bm s).memory = s.memory.set s.memptr
          (if s.memory.getD s.memptr 0 < 255 then s.memory.getD s.memptr 0 + 1 else 0)) ∧
    (∀ (prog : List Char) (bm : List (Nat × Nat)) (s : St),
        prog.getD s.codeptr ' ' = '-' →
        (step prog bm s).memory = s.memory.set s.memptr
          (if 0 < s.memory.getD s.memptr 0 then s.memory.getD s.memptr 0 - 1 else 255)) ∧
    (∀ (prog : List Char) (bm : List (Nat × Nat)) (m : Nat),
        ∀ v ∈ ((step prog bm)^[m] initSt).memory, v ≤ 255) ∧
    decode (fun _ => 0) 300 (List.replicate 256 '+' ++ ['.']) = some (some [0]) ∧
    decode (fun _ => 0) 5 ['+', '.'] = some (some [1]) :=
  ⟨fun _ _ _ hc => step_plus_memory hc,
   fun _ _ _ hc => step_minus_memory hc,
   fun prog bm m => cells_le_iterate prog bm m,
   by decide,
   by decide⟩

theorem cell_wraparound_witness :
    (step ['+'] [] ⟨[], [255], 0, 0⟩).memory = [0] ∧
    (step ['-'] [] ⟨[], [0], 0, 0⟩).memory = [255] := by
  constructor
  · rw [cell_wraparound.1 ['+'] [] ⟨[], [255], 0, 0⟩ (by decide)]
    decide
  · rw [cell_wraparound.2.1 ['-'] [] ⟨[], [0], 0, 0⟩ (by decide)]
    decide

/-- C4: `<` at memory pointer 0 wraps to the current right end
`length - 1` and otherwise decrements, leaving the tape unchanged; `>` at
the last valid index appends one zero cell and in every case increments the
pointer; and the program `"<."` outputs the tape's last cell, initially 0. -/
theorem pointer_edge_behaviour :
    (∀ (prog : List Char) (bm : List (Nat × Nat)) (s : St),
        prog.getD s.codeptr ' ' = '<' →
        (step prog bm s).memptr = (if s.memptr = 0 then s.memory.length - 1 else s.memptr - 1) ∧
        (step prog bm s).memory = s.memory) ∧
    (∀ (prog : List Char) (bm : List (Nat × Nat)) (s : St),
        prog.getD s.codeptr ' ' = '>' →
        (step prog bm s).memptr = s.memptr + 1 ∧
        (step prog bm s).memory =
          (if s.memptr = s.memory.length - 1 then s.memory ++ [0] else s.memory)) ∧
    decode (fun _ => 0) 5 ['<', '.'] = some (some [0]) := by
  refine ⟨?_, ?_, by decide⟩
  · intro prog bm s hc
    rw [step_left_state hc]
    exact ⟨rfl, rfl⟩
  · intro prog bm s hc
    rw [step_right_state hc]
    exact ⟨rfl, rfl⟩

theorem pointer_edge_behaviour_witness :
    (step ['<'] [] ⟨[], [5, 6], 0, 0⟩).memptr = 1 ∧
    (step ['>'] [] ⟨[], [5], 0, 0⟩).memory = [5, 0] := by
  constructor
  · rw [(pointer_edge_behaviour.1 ['<'] [] ⟨[], [5, 6], 0, 0⟩ (by decide)).1]
    decide
  · rw [(pointer_edge_behaviour.2.1 ['>'] [] ⟨[], [5], 0, 0⟩ (by decide)).2]
    decide

/-- C5: whenever the elapsed time observed at the top of an iteration
exceeds the 60-second budget, the loop returns the absent result whatever
output has accumulated in the state (all-or-nothing); consequently a decode
whose clock is already past the budget at the first dispatch returns
absent. -/
theorem timeout_all_or_nothing :
    (∀ (prog : List Char) (bm : List (Nat × Nat)) (elapsed : Nat → Nat) (fuel n : Nat)
        (s : St), s.codeptr < prog.length → 60 < elapsed n →
        run prog bm elapsed (fuel + 1) n s = some none) ∧
    (∀ (ctext : List Char) (elapsed : Nat → Nat) (fuel : Nat),
        0 < ctext.length → 60 < elapsed 0 →
        decode elapsed (fuel + 1) ctext = some none) := by
  constructor
  · intro prog bm elapsed fuel n s hc ht
    exact run_timeout hc ht
  · intro ctext elapsed fuel hlen ht
    unfold decode runProgram
    rcases hbc : bracemap_and_check ctext with ⟨opt, flag⟩
    cases flag
    · rfl
    · show Option.map (Option.map St.result)
          (run ctext (opt.getD []) elapsed (fuel + 1) 0 initSt) = some none
      rw [@run_timeout ctext (opt.getD []) elapsed fuel 0 initSt (by exact hlen) ht]
      rfl

theorem timeout_all_or_nothing_witness :
    run ['+'] [] (fun _ => 61) 3 0 ⟨[7], [0], 0, 0⟩ = some none ∧
    decode (fun _ => 61) 5 ['+', '.'] = some none :=
  ⟨timeout_all_or_nothing.1 ['+'] [] (fun _ => 61) 2 0 ⟨[7], [0], 0, 0⟩ (by decide) (by decide),
   timeout_all_or_nothing.2 ['+', '.'] (fun _ => 61) 4 (by decide) (by decide)⟩

/-- C6: the scan aborts at the first `]` met with an empty open stack, no
matter what follows (short circuit), so such programs get no bracket table,
are ineligible, and decode returns absent without running a single step
(the result holds even with zero fuel for the interpreter loop). -/
theorem unmatched_close_rejects :
    (∀ (rest : List Char) (idx : Nat) (bm : List (Nat × Nat)) (lc : Nat) (pr : Bool),
        scanAux (']' :: rest) idx [] bm lc pr = none) ∧
    bracemap_and_check [']'] = (none, false) ∧
    bracemap_and_check [']', '[', '['] = (none, false) ∧
    (∀ (elapsed : Nat → Nat) (fuel : Nat),
        decode elapsed fuel [']'] = some none ∧
        decode elapsed fuel [']', '[', '['] = some none) := by
  refine ⟨?_, by decide, by decide, ?_⟩
  · intro rest idx bm lc pr
    simp only [scanAux]
    rw [if_neg (fun (h : pr = false ∧ (']' : Char) = '.') => absurd h.2 (by decide)),
      if_neg (by decide : ¬(']' : Char) = '['), if_pos trivial]
  · intro elapsed fuel
    exact ⟨decode_absent_of_not_bf (by decide), decode_absent_of_not_bf (by decide)⟩

/-- C7: any bracket table returned by the validator is symmetric
(`table[i] = j` iff `table[j] = i`) and every recorded pair is an `[` at the
smaller position with its well-nested matching `]` at the larger one. -/
theorem bracemap_symmetric_and_matched :
    ∀ (prog : List Char) (bm : List (Nat × Nat)) (b : Bool),
      bracemap_and_check prog = (some bm, b) →
      (∀ i j, bm.lookup i = some j ↔ bm.lookup j = some i) ∧
      (∀ i j, bm.lookup i = some j → IsMatch prog (min i j) (max i j)) := by
  intro prog bm b h
  obtain ⟨stack', lc', pr', hs⟩ := scan_of_check h
  obtain ⟨_, _, hbm⟩ := inv_of_scan hs
  exact ⟨fun i j => lookup_symm_of_bmInv hbm i j,
    fun i j hl => lookup_match_of_bmInv hbm i j hl⟩

theorem bracemap_symmetric_and_matched_witness :
    (List.lookup 2 [(2, 0), (0, 2)] = some 0) ∧ IsMatch ['[', '.', ']'] 0 2 := by
  have h := bracemap_symmetric_and_matched ['[', '.', ']'] [(2, 0), (0, 2)] true (by decide)
  constructor
  · exact (h.1 0 2).mp (by decide)
  · exact h.2 0 2 (by decide)

/-- C8: for an eligible program every `[` or `]` position has a defined
bracket-table entry, and along any execution from the initial state (and at
the end of any completed run) the memory pointer is a valid index into the
tape, so every cell access is in bounds. -/
theorem no_runtime_fault :
    (∀ (prog : List Char) (bm : List (Nat × Nat)),
        bracemap_and_check prog = (some bm, true) →
        ∀ p, p < prog.length → (prog.getD p ' ' = '[' ∨ prog.getD p ' ' = ']') →
          ∃ j, bm.lookup p = some j) ∧
    (∀ (prog : List Char) (bm : List (Nat × Nat)) (m : Nat),
        ((step prog bm)^[m] initSt).memptr < ((step prog bm)^[m] initSt).memory.length) ∧
    (∀ (prog : List Char) (bm : List (Nat × Nat)) (elapsed : Nat → Nat) (fuel n : Nat)
        (t : St), run prog bm elapsed fuel n initSt = some (some t) →
        t.memptr < t.memory.length) := by
  refine ⟨?_, ?_, ?_⟩
  · intro prog bm h
    exact lookup_defined_of_check h
  · intro prog bm m
    exact memptr_lt_iterate prog bm m
  · intro prog bm elapsed fuel n t h
    exact run_final_pres (fun s => s.memptr < s.memory.length)
      (fun s hs => memptr_lt_step hs) fuel n initSt t (by simp [initSt]) h

theorem no_runtime_fault_witness :
    (∃ j, List.lookup 0 [(2, 0), (0, 2)] = some j) ∧
    (⟨[0], List.replicate 100 0, 1, 0⟩ : St).memptr <
      (⟨[0], List.replicate 100 0, 1, 0⟩ : St).memory.length := by
  constructor
  · exact no_runtime_fault.1 ['[', '.', ']'] [(2, 0), (0, 2)] (by decide) 0 (by decide)
      (by decide)
  · exact no_runtime_fault.2.2 ['.'] [] (fun _ => 0) 2 0 ⟨[0], List.replicate 100 0, 1, 0⟩
      (by decide)

/-- C9: the tape length never decreases across a step, and for the program
of `k ≥ 100` rightward moves followed by `.`, the run completes with a tape
of length `k + 1 = 100 + (k - 99)`, where `k - 99` counts the rightward
moves whose destination index lies beyond the initial 100 cells. -/
theorem tape_growth :
    (∀ (prog : List Char) (bm : List (Nat × Nat)) (s : St),
        s.memory.length ≤ (step prog bm s).memory.length) ∧
    (∀ k, 100 ≤ k →
        runProgram (fun _ => 0) (k + 2) (List.replicate k '>' ++ ['.']) =
          some (some ⟨[0], List.replicate (k + 1) 0, k + 1, k⟩) ∧
        (List.replicate (k + 1) (0 : Nat)).length =
          100 + (List.range k).countP (fun i => decide (99 ≤ i))) := by
  constructor
  · intro prog bm s
    exact length_mono_step prog bm s
  · intro k hk
    constructor
    · unfold runProgram
      rw [check_growProg k]
      show run (List.replicate k '>' ++ ['.']) [] (fun _ => 0) (k + 2) 0 initSt = _
      have hinit : initSt = ⟨[], List.replicate (max 100 (0 + 1)) 0, 0, 0⟩ := by decide
      rw [hinit]
      exact run_growProg hk k 0 0 (by omega)
    · rw [countP_range_past99 k (by omega)]
      simp
      omega

theorem tape_growth_witness :
    runProgram (fun _ => 0) 103 (List.replicate 101 '>' ++ ['.']) =
      some (some ⟨[0], List.replicate 102 0, 102, 101⟩) ∧
    (List.replicate 102 (0 : Nat)).length =
      100 + (List.range 101).countP (fun i => decide (99 ≤ i)) :=
  tape_growth.2 101 (by decide)

/-- C10: the program `"[.]"` is eligible (it contains a `.`), yet the loop
is skipped because the cell is 0, the run completes normally with no output,
and decode returns the present empty string — distinct from the absent
result. -/
theorem eligible_but_empty_output :
    (bracemap_and_check ['[', '.', ']']).2 = true ∧
    decode (fun _ => 0) 10 ['[', '.', ']'] = some (some []) ∧
    some (some ([] : List Nat)) ≠ (some none : Option (Option (List Nat))) := by
  refine ⟨by decide, by decide, by decide⟩

end Brainfuck
end Ciphey
